import Mathlib

/-!
Shallow embedding of the `graphql-config` Rust crate (`src/lib.rs`).

The crate defines two serde-derived types and nothing else:

* `GraphQLConfiguration` — the whole document: an optional
  `projects : BTreeMap<String, GraphQLProjectConfiguration>` plus a
  `#[serde(flatten)]` field `root : GraphQLProjectConfiguration`.
* `GraphQLProjectConfiguration` — `#[serde(rename_all = "camelCase")]`,
  five independently optional fields.

The behaviour under verification is the serde (de)serialization of these
types from/to a `serde_json::Value`.  We embed `serde_json::Value` as
`Json` below (numbers as `Int`; the claims only concern exact integer
preservation), `BTreeMap` as a key-sorted association list built by
ordered insertion, and the derived serde decoding as explicit
lookup-based decoders over `Except`, the fail-fast error monad.
-/

/-- A generic hierarchical value, mirroring `serde_json::Value`.
Objects are association lists; `serde_json`'s `Map` (a `BTreeMap` when
the `preserve_order` feature is off, as in this crate) always has
unique, sorted keys, which is expressed by the sortedness predicates
below where it matters. -/
inductive Json where
  | null : Json
  | bool (b : Bool) : Json
  | num (n : Int) : Json
  | str (s : String) : Json
  | arr (elems : List Json) : Json
  | obj (fields : List (String × Json)) : Json

/-- The error taxonomy of the decode operation: a field value of the
wrong shape, or a top-level document that is not an object at all. -/
inductive DecodeError where
  | typeMismatch (expected : String) : DecodeError
  | malformedDocument : DecodeError
deriving DecidableEq, Repr

/-- Boolean lexicographic order on character lists, embedding the `Ord`
instance Rust's `BTreeMap<String, _>` sorts by. -/
def charListLtb : List Char → List Char → Bool
  | [], [] => false
  | [], _ :: _ => true
  | _ :: _, [] => false
  | a :: as, b :: bs => if a < b then true else if b < a then false else charListLtb as bs

/-- Lexicographic order on strings (key order of `BTreeMap<String, _>`). -/
def keyLtb (a b : String) : Bool := charListLtb a.data b.data

/-- Insertion into a key-sorted association list, embedding
`BTreeMap::insert`: an existing binding for the key is replaced. -/
def insertBTree {α : Type} (k : String) (v : α) : List (String × α) → List (String × α)
  | [] => [(k, v)]
  | (k₁, v₁) :: rest =>
    if keyLtb k k₁ then (k, v) :: (k₁, v₁) :: rest
    else if k = k₁ then (k, v) :: rest
    else (k₁, v₁) :: insertBTree k v rest

/-- Building a `BTreeMap` by inserting the entries of a list in order,
as serde's map visitor does (a later duplicate key overwrites an
earlier one). -/
def fromEntries {α : Type} (l : List (String × α)) : List (String × α) :=
  l.foldl (fun m p => insertBTree p.1 p.2 m) []

/-- Key lookup in an association list (first match).  On unique-keyed
objects — all objects produced by `serde_json` — this is exactly
`Map::get`. -/
def lookupKey {α : Type} (l : List (String × α)) (k : String) : Option α :=
  (l.find? (fun p => p.1 = k)).map (fun p => p.2)

/-- Key-sortedness of an association list: keys strictly ascending in
lexicographic order.  This is the representation invariant of
`BTreeMap` (and implies key uniqueness). -/
def SortedKeys {α : Type} (l : List (String × α)) : Prop :=
  l.Pairwise (fun a b => keyLtb a.1 b.1 = true)

instance {α : Type} (l : List (String × α)) : Decidable (SortedKeys l) :=
  List.instDecidablePairwise l

/-- `GraphQLProjectConfiguration` from `src/lib.rs` (lines 92-109): the
shape shared by the top-level configuration and each project entry.
`schema_path : Option PathBuf` is embedded with `String` for the path;
`extensions : Option BTreeMap<String, serde_json::Value>` keeps its
values as raw `Json`. -/
structure GraphQLProjectConfiguration where
  name : Option String
  schema_path : Option String
  includes : Option (List String)
  excludes : Option (List String)
  extensions : Option (List (String × Json))

/-- `GraphQLConfiguration` from `src/lib.rs` (lines 80-88): the whole
document, an optional project map plus the flattened root
configuration. -/
structure GraphQLConfiguration where
  projects : Option (List (String × GraphQLProjectConfiguration))
  root : GraphQLProjectConfiguration

/-- serde's `Deserialize` for `String` (and for `PathBuf`, which only
accepts strings from a JSON value): anything but a string is an
invalid-type error. -/
def decodeString : Json → Except DecodeError String
  | .str s => .ok s
  | _ => .error (.typeMismatch "a string")

/-- Fail-fast elementwise decoding, as serde's sequence visitor
performs: the first failing element aborts, no partial list is
produced. -/
def decodeEach {α : Type} (f : Json → Except DecodeError α) :
    List Json → Except DecodeError (List α)
  | [] => .ok []
  | j :: rest => do
    let a ← f j
    let as ← decodeEach f rest
    .ok (a :: as)

/-- serde's `Deserialize` for `Vec<String>`: the value must be an
array, and every element must individually be a string. -/
def decodeStringList : Json → Except DecodeError (List String)
  | .arr xs => decodeEach decodeString xs
  | _ => .error (.typeMismatch "a sequence")

/-- serde's `Deserialize` for `BTreeMap<String, serde_json::Value>`:
the value must be an object; every value under it is taken verbatim
(`Value`'s deserialization from a value is the identity and cannot
fail). -/
def decodeExtensions : Json → Except DecodeError (List (String × Json))
  | .obj kvs => .ok (fromEntries kvs)
  | _ => .error (.typeMismatch "a map")

/-- serde's `Deserialize` for an `Option<T>` field value: an explicit
`null` decodes to `None` just like an absent key does; any other value
must decode as `T`.  The `none` input arm is serde's missing-field path
for `Option` fields. -/
def decodeOpt {α : Type} (f : Json → Except DecodeError α) :
    Option Json → Except DecodeError (Option α)
  | none => .ok none
  | some .null => .ok none
  | some v => (f v).map some

/-- The derived `Deserialize` body of `GraphQLProjectConfiguration`
given the values found for its five camel-case keys (field order as
declared in the struct). -/
def projectOfLookups (n sp inc exc ext : Option Json) :
    Except DecodeError GraphQLProjectConfiguration := do
  let name ← decodeOpt decodeString n
  let schema_path ← decodeOpt decodeString sp
  let includes ← decodeOpt decodeStringList inc
  let excludes ← decodeOpt decodeStringList exc
  let extensions ← decodeOpt decodeExtensions ext
  .ok ⟨name, schema_path, includes, excludes, extensions⟩

/-- serde's derived `Deserialize` for `GraphQLProjectConfiguration`
(`#[serde(rename_all = "camelCase")]`): the input must be an object;
each declared field reads the exactly-matching camel-case key; keys
matching no declared field are ignored. -/
def decodeProject : Json → Except DecodeError GraphQLProjectConfiguration
  | .obj kvs =>
    projectOfLookups (lookupKey kvs "name") (lookupKey kvs "schemaPath")
      (lookupKey kvs "includes") (lookupKey kvs "excludes") (lookupKey kvs "extensions")
  | _ => .error (.typeMismatch "struct GraphQLProjectConfiguration")

/-- serde's map visitor for `BTreeMap<String, GraphQLProjectConfiguration>`
entries: each value decodes as a project configuration under its
verbatim key, failing fast on the first bad value. -/
def decodeEntries : List (String × Json) →
    Except DecodeError (List (String × GraphQLProjectConfiguration))
  | [] => .ok []
  | (k, v) :: rest => do
    let p ← decodeProject v
    let ps ← decodeEntries rest
    .ok ((k, p) :: ps)

/-- serde's `Deserialize` for `BTreeMap<String, GraphQLProjectConfiguration>`:
an object whose every value decodes as a project configuration; the
decoded entries are inserted into the map in input order. -/
def decodeProjects : Json → Except DecodeError (List (String × GraphQLProjectConfiguration))
  | .obj kvs => (decodeEntries kvs).map fromEntries
  | _ => .error (.typeMismatch "a map")

/-- serde's derived `Deserialize` for `GraphQLConfiguration` with the
`#[serde(flatten)]` root: the input must be an object
(`MalformedDocument` otherwise); the `projects` key, when present,
decodes the project map; all remaining keys are buffered and decoded a
second time as the flattened `root`. -/
def decodeConfiguration : Json → Except DecodeError GraphQLConfiguration
  | .obj kvs => do
    let projects ← decodeOpt decodeProjects (lookupKey kvs "projects")
    let root ← decodeProject (.obj (kvs.filter (fun p => p.1 ≠ "projects")))
    .ok ⟨projects, root⟩
  | _ => .error .malformedDocument

/-- serde's `Serialize` of an `Option` field without
`skip_serializing_if`: `None` serializes as an explicit `null`. -/
def encodeOpt {α : Type} (f : α → Json) : Option α → Json
  | none => .null
  | some a => f a

/-- serde's `Serialize` for `Vec<String>`. -/
def encodeStringList (xs : List String) : Json :=
  .arr (xs.map Json.str)

/-- serde's derived `Serialize` for `GraphQLProjectConfiguration`:
every field is emitted under its camel-case name (`None` as `null`);
`serde_json`'s value map stores the keys sorted. -/
def encodeProject (c : GraphQLProjectConfiguration) : Json :=
  .obj [("excludes", encodeOpt encodeStringList c.excludes),
        ("extensions", encodeOpt Json.obj c.extensions),
        ("includes", encodeOpt encodeStringList c.includes),
        ("name", encodeOpt Json.str c.name),
        ("schemaPath", encodeOpt Json.str c.schema_path)]

/-- serde's `Serialize` for the project map: each project serializes
under its verbatim key. -/
def encodeProjects (m : List (String × GraphQLProjectConfiguration)) : Json :=
  .obj (m.map (fun p => (p.1, encodeProject p.2)))

/-- serde's derived `Serialize` for `GraphQLConfiguration`: `projects`
(`null` when `None`) and the flattened fields of `root` are emitted
into one object, whose keys `serde_json` stores sorted. -/
def encodeConfiguration (c : GraphQLConfiguration) : Json :=
  .obj [("excludes", encodeOpt encodeStringList c.root.excludes),
        ("extensions", encodeOpt Json.obj c.root.extensions),
        ("includes", encodeOpt encodeStringList c.root.includes),
        ("name", encodeOpt Json.str c.root.name),
        ("projects", encodeOpt (fun m => encodeProjects m) c.projects),
        ("schemaPath", encodeOpt Json.str c.root.schema_path)]

/-- The fields of an object value (empty for non-objects); used to
state which keys a re-encoded configuration emits. -/
def objFields : Json → List (String × Json)
  | .obj l => l
  | _ => []

/-- Sortedness of every extension map of a project configuration: the
representation invariant `BTreeMap` guarantees for the Rust value. -/
def ProjectWF (p : GraphQLProjectConfiguration) : Prop :=
  ∀ e, p.extensions = some e → SortedKeys e

/-- Sortedness of every `BTreeMap` inside a configuration: the
representation invariant guaranteed for every Rust
`GraphQLConfiguration` value. -/
def ConfigWF (c : GraphQLConfiguration) : Prop :=
  ProjectWF c.root ∧
    ∀ m, c.projects = some m → SortedKeys m ∧ ∀ q, q ∈ m → ProjectWF q.2

example : decodeConfiguration (.obj [("schemaPath", .str "./schema.graphql")]) =
    .ok ⟨none, ⟨none, some "./schema.graphql", none, none, none⟩⟩ := rfl

example : decodeConfiguration (.num 3) = .error .malformedDocument := rfl

example : decodeConfiguration
    (.obj [("projects", .obj [("amazingLibrary", .obj [("schemaPath", .str "./a.graphql")])])]) =
    .ok ⟨some [("amazingLibrary", ⟨none, some "./a.graphql", none, none, none⟩)],
      ⟨none, none, none, none, none⟩⟩ := rfl

example : decodeConfiguration (.obj [("extensions", .obj [("lastUpdatedAt", .num 1532367255884)])]) =
    .ok ⟨none, ⟨none, none, none, none, some [("lastUpdatedAt", .num 1532367255884)]⟩⟩ := rfl

example : decodeConfiguration (.obj [("includes", .arr [.str "a", .num 1])]) =
    .error (.typeMismatch "a string") := rfl

example : encodeConfiguration ⟨none, ⟨none, none, none, none, none⟩⟩ =
    .obj [("excludes", .null), ("extensions", .null), ("includes", .null),
          ("name", .null), ("projects", .null), ("schemaPath", .null)] := rfl

example : decodeConfiguration (encodeConfiguration
    ⟨some [("p", ⟨some "n", none, none, none, none⟩)],
      ⟨none, some "s", some ["i"], none, some [("a", .num 2), ("b", .null)]⟩⟩) =
    .ok ⟨some [("p", ⟨some "n", none, none, none, none⟩)],
      ⟨none, some "s", some ["i"], none, some [("a", .num 2), ("b", .null)]⟩⟩ := rfl

theorem charListLtb_irrefl (a : List Char) : charListLtb a a = false := by
  induction a with
  | nil => rfl
  | cons c t ih => simp [charListLtb, lt_irrefl, ih]

theorem charListLtb_asymm {a : List Char} : ∀ {b : List Char},
    charListLtb a b = true → charListLtb b a = false := by
  induction a with
  | nil =>
    intro b h
    cases b with
    | nil => simp [charListLtb] at h
    | cons d s => rfl
  | cons c t ih =>
    intro b h
    cases b with
    | nil => simp [charListLtb] at h
    | cons d s =>
      simp only [charListLtb] at h ⊢
      rcases lt_trichotomy c d with hcd | hcd | hcd
      · simp [hcd, lt_asymm hcd]
      · subst hcd
        simp only [lt_irrefl, if_false] at h ⊢
        exact ih h
      · simp [hcd, lt_asymm hcd] at h

theorem charListLtb_trans {a : List Char} : ∀ {b c : List Char},
    charListLtb a b = true → charListLtb b c = true → charListLtb a c = true := by
  induction a with
  | nil =>
    intro b c h₁ h₂
    cases b with
    | nil => simp [charListLtb] at h₁
    | cons d s =>
      cases c with
      | nil => simp [charListLtb] at h₂
      | cons e u => rfl
  | cons x t ih =>
    intro b c h₁ h₂
    cases b with
    | nil => simp [charListLtb] at h₁
    | cons d s =>
      cases c with
      | nil => simp [charListLtb] at h₂
      | cons e u =>
        simp only [charListLtb] at h₁ h₂ ⊢
        rcases lt_trichotomy x d with hxd | hxd | hxd
        · rcases lt_trichotomy d e with hde | hde | hde
          · simp [lt_trans hxd hde]
          · subst hde; simp [hxd]
          · simp [hde, lt_asymm hde] at h₂
        · subst hxd
          rcases lt_trichotomy x e with hxe | hxe | hxe
          · simp [hxe]
          · subst hxe
            simp only [lt_irrefl, if_false] at h₁ h₂ ⊢
            exact ih h₁ h₂
          · simp [hxe, lt_asymm hxe] at h₂
        · simp [hxd, lt_asymm hxd] at h₁

theorem charListLtb_eq {a : List Char} : ∀ {b : List Char},
    charListLtb a b = false → charListLtb b a = false → a = b := by
  induction a with
  | nil =>
    intro b h₁ _
    cases b with
    | nil => rfl
    | cons d s => simp [charListLtb] at h₁
  | cons c t ih =>
    intro b h₁ h₂
    cases b with
    | nil => simp [charListLtb] at h₂
    | cons d s =>
      simp only [charListLtb] at h₁ h₂
      rcases lt_trichotomy c d with hcd | hcd | hcd
      · simp [hcd] at h₁
      · subst hcd
        simp only [lt_irrefl, if_false] at h₁ h₂
        exact congrArg (c :: ·) (ih h₁ h₂)
      · simp [hcd] at h₂

theorem keyLtb_irrefl (a : String) : keyLtb a a = false :=
  charListLtb_irrefl a.data

theorem keyLtb_asymm {a b : String} (h : keyLtb a b = true) : keyLtb b a = false :=
  charListLtb_asymm h

theorem keyLtb_trans {a b c : String} (h₁ : keyLtb a b = true) (h₂ : keyLtb b c = true) :
    keyLtb a c = true :=
  charListLtb_trans h₁ h₂

theorem keyLtb_eq {a b : String} (h₁ : keyLtb a b = false) (h₂ : keyLtb b a = false) : a = b :=
  String.ext (charListLtb_eq h₁ h₂)

theorem keyLtb_ne {a b : String} (h : keyLtb a b = true) : a ≠ b := by
  intro he
  subst he
  simp [keyLtb_irrefl] at h

theorem keyLtb_of_not_of_ne {a b : String} (h₁ : keyLtb a b = false) (h₂ : a ≠ b) :
    keyLtb b a = true := by
  cases hb : keyLtb b a with
  | true => rfl
  | false => exact absurd (keyLtb_eq h₁ hb) h₂

theorem lookupKey_cons {α : Type} {k₁ : String} {v₁ : α} {l : List (String × α)} {k : String} :
    lookupKey ((k₁, v₁) :: l) k = if k₁ = k then some v₁ else lookupKey l k := by
  by_cases h : k₁ = k <;> simp [lookupKey, List.find?_cons, h]

theorem lookupKey_append {α : Type} {a b : List (String × α)} {k : String} :
    lookupKey (a ++ b) k = (lookupKey a k).or (lookupKey b k) := by
  induction a with
  | nil => simp [lookupKey]
  | cons p t ih =>
    obtain ⟨k₁, v₁⟩ := p
    by_cases h : k₁ = k <;> simp [lookupKey_cons, h, ih]

theorem lookupKey_eq_none {α : Type} {l : List (String × α)} {k : String} :
    lookupKey l k = none ↔ ∀ p ∈ l, p.1 ≠ k := by
  simp [lookupKey, List.find?_eq_none]

theorem lookupKey_map_value {α β : Type} {g : α → β} {l : List (String × α)} {k : String} :
    lookupKey (l.map (fun p => (p.1, g p.2))) k = (lookupKey l k).map g := by
  induction l with
  | nil => rfl
  | cons p t ih =>
    obtain ⟨k₁, v₁⟩ := p
    by_cases h : k₁ = k <;> simp [lookupKey_cons, h, ih]

theorem lookupKey_filter {α : Type} {q : String → Bool} {l : List (String × α)} {k : String}
    (hq : q k = true) : lookupKey (l.filter (fun p => q p.1)) k = lookupKey l k := by
  induction l with
  | nil => rfl
  | cons p t ih =>
    obtain ⟨k₁, v₁⟩ := p
    by_cases h : k₁ = k
    · subst h
      simp [List.filter_cons, hq, lookupKey_cons, ih]
    · cases hqk : q k₁ <;> simp [List.filter_cons, hqk, lookupKey_cons, h, ih]

theorem mem_insertBTree {α : Type} {k : String} {v : α} {m : List (String × α)} {p : String × α}
    (h : p ∈ insertBTree k v m) : p = (k, v) ∨ p ∈ m := by
  induction m with
  | nil => simpa [insertBTree] using h
  | cons q t ih =>
    obtain ⟨k₁, v₁⟩ := q
    simp only [insertBTree] at h
    by_cases h₁ : keyLtb k k₁ = true
    · rw [if_pos h₁] at h
      simp only [List.mem_cons] at h ⊢
      tauto
    · rw [if_neg h₁] at h
      by_cases h₂ : k = k₁
      · rw [if_pos h₂] at h
        simp only [List.mem_cons] at h ⊢
        tauto
      · rw [if_neg h₂] at h
        simp only [List.mem_cons] at h ⊢
        rcases h with h | h
        · tauto
        · rcases ih h with h | h <;> tauto

theorem sortedKeys_insertBTree {α : Type} {k : String} {v : α} {m : List (String × α)}
    (h : SortedKeys m) : SortedKeys (insertBTree k v m) := by
  induction m with
  | nil => simp [insertBTree, SortedKeys]
  | cons q t ih =>
    obtain ⟨k₁, v₁⟩ := q
    rw [SortedKeys, List.pairwise_cons] at h
    obtain ⟨h₁, h₂⟩ := h
    simp only [insertBTree]
    by_cases hlt : keyLtb k k₁ = true
    · rw [if_pos hlt]
      refine List.Pairwise.cons ?_ (List.Pairwise.cons h₁ h₂)
      intro q hq
      rcases List.mem_cons.mp hq with rfl | hq
      · exact hlt
      · exact keyLtb_trans hlt (h₁ q hq)
    · rw [if_neg hlt]
      by_cases heq : k = k₁
      · rw [if_pos heq]
        subst heq
        exact List.Pairwise.cons h₁ h₂
      · rw [if_neg heq]
        refine List.Pairwise.cons ?_ (ih h₂)
        intro q hq
        rcases mem_insertBTree hq with rfl | hq
        · exact keyLtb_of_not_of_ne (Bool.not_eq_true _ ▸ hlt) heq
        · exact h₁ q hq

theorem insertBTree_append {α : Type} {k : String} {v : α} {m : List (String × α)}
    (h : ∀ p ∈ m, keyLtb p.1 k = true) : insertBTree k v m = m ++ [(k, v)] := by
  induction m with
  | nil => rfl
  | cons q t ih =>
    obtain ⟨k₁, v₁⟩ := q
    have hk₁ : keyLtb k₁ k = true := h (k₁, v₁) (List.mem_cons_self _ _)
    simp only [insertBTree]
    rw [if_neg (by simp [keyLtb_asymm hk₁]), if_neg (fun he => keyLtb_ne hk₁ he.symm)]
    simp [ih (fun p hp => h p (List.mem_cons_of_mem _ hp))]

theorem sortedKeys_foldl_insert {α : Type} (l : List (String × α)) :
    ∀ (m : List (String × α)), SortedKeys m →
      SortedKeys (l.foldl (fun acc p => insertBTree p.1 p.2 acc) m) := by
  induction l with
  | nil => intro m h; exact h
  | cons p t ih => intro m h; exact ih _ (sortedKeys_insertBTree h)

theorem sortedKeys_fromEntries {α : Type} (l : List (String × α)) :
    SortedKeys (fromEntries l) :=
  sortedKeys_foldl_insert l [] List.Pairwise.nil

theorem foldl_insert_of_sorted {α : Type} (l : List (String × α)) :
    ∀ (m : List (String × α)), SortedKeys (m ++ l) →
      l.foldl (fun acc p => insertBTree p.1 p.2 acc) m = m ++ l := by
  induction l with
  | nil => intro m _; simp
  | cons p t ih =>
    intro m h
    have hm : ∀ q ∈ m, keyLtb q.1 p.1 = true := by
      rw [SortedKeys, List.pairwise_append] at h
      exact fun q hq => h.2.2 q hq p (List.mem_cons_self _ _)
    have : List.foldl (fun acc q => insertBTree q.1 q.2 acc) m ((p :: t) : List (String × α)) =
        List.foldl (fun acc q => insertBTree q.1 q.2 acc) (m ++ [p]) t := by
      simp [insertBTree_append hm]
    rw [this, ih (m ++ [p]) (by simpa using h)]
    simp

theorem fromEntries_of_sorted {α : Type} {l : List (String × α)} (h : SortedKeys l) :
    fromEntries l = l := by
  simpa using foldl_insert_of_sorted l [] (by simpa using h)

theorem lookupKey_insertBTree_self {α : Type} (k : String) (v : α) (m : List (String × α)) :
    lookupKey (insertBTree k v m) k = some v := by
  induction m with
  | nil => simp [insertBTree, lookupKey_cons]
  | cons q t ih =>
    obtain ⟨k₁, v₁⟩ := q
    simp only [insertBTree]
    by_cases h₁ : keyLtb k k₁ = true
    · rw [if_pos h₁]
      simp [lookupKey_cons]
    · rw [if_neg h₁]
      by_cases h₂ : k = k₁
      · rw [if_pos h₂]
        simp [lookupKey_cons]
      · rw [if_neg h₂]
        rw [lookupKey_cons, if_neg (fun he => h₂ he.symm)]
        exact ih

theorem lookupKey_insertBTree_ne {α : Type} {k j : String} (v : α) (m : List (String × α))
    (h : k ≠ j) : lookupKey (insertBTree k v m) j = lookupKey m j := by
  induction m with
  | nil => simp [insertBTree, lookupKey_cons, h]
  | cons q t ih =>
    obtain ⟨k₁, v₁⟩ := q
    simp only [insertBTree]
    by_cases h₁ : keyLtb k k₁ = true
    · rw [if_pos h₁, lookupKey_cons, if_neg h]
    · rw [if_neg h₁]
      by_cases h₂ : k = k₁
      · rw [if_pos h₂, lookupKey_cons, if_neg h, lookupKey_cons, if_neg (h₂ ▸ h)]
      · rw [if_neg h₂, lookupKey_cons, lookupKey_cons, ih]

theorem lookupKey_foldl_insert {α : Type} (l : List (String × α)) :
    ∀ (m : List (String × α)) (k : String),
      lookupKey (l.foldl (fun acc p => insertBTree p.1 p.2 acc) m) k =
        (lookupKey l.reverse k).or (lookupKey m k) := by
  induction l with
  | nil =>
    intro m k
    simp [lookupKey]
  | cons p t ih =>
    intro m k
    obtain ⟨k₁, v₁⟩ := p
    simp only [List.foldl_cons, List.reverse_cons]
    rw [ih, lookupKey_append]
    by_cases h : k₁ = k
    · subst h
      rw [lookupKey_insertBTree_self]
      cases lookupKey t.reverse k₁ <;> simp [lookupKey_cons, Option.or]
    · rw [lookupKey_insertBTree_ne _ _ h]
      have hsing : lookupKey [(k₁, v₁)] k = none := by
        rw [lookupKey_cons, if_neg h]
        rfl
      rw [hsing, Option.or_none]

theorem lookupKey_fromEntries {α : Type} (l : List (String × α)) (k : String) :
    lookupKey (fromEntries l) k = lookupKey l.reverse k := by
  rw [fromEntries, lookupKey_foldl_insert]
  cases lookupKey l.reverse k <;> simp [lookupKey, Option.or]

theorem lookupKey_reverse_of_nodup {α : Type} {l : List (String × α)}
    (h : (l.map Prod.fst).Nodup) : ∀ k, lookupKey l.reverse k = lookupKey l k := by
  induction l with
  | nil => intro k; rfl
  | cons p t ih =>
    intro k
    obtain ⟨k₁, v₁⟩ := p
    simp only [List.map_cons, List.nodup_cons] at h
    obtain ⟨hk₁, ht⟩ := h
    rw [List.reverse_cons, lookupKey_append]
    by_cases hk : k₁ = k
    · subst hk
      have ht0 : lookupKey t k₁ = none :=
        lookupKey_eq_none.mpr
          (fun q hq he => hk₁ (he ▸ List.mem_map_of_mem Prod.fst hq))
      rw [ih ht, ht0]
      simp [lookupKey_cons, Option.or]
    · have hsing : lookupKey [(k₁, v₁)] k = none := by
        rw [lookupKey_cons, if_neg hk]
        rfl
      rw [ih ht, hsing, Option.or_none, lookupKey_cons, if_neg hk]

theorem except_bind_ok {ε α β : Type} {x : Except ε α} {f : α → Except ε β} {b : β}
    (h : (x >>= f) = .ok b) : ∃ a, x = .ok a ∧ f a = .ok b := by
  cases x with
  | ok a => exact ⟨a, rfl, h⟩
  | error e₁ => exact absurd h (by simp [Bind.bind, Except.bind])

theorem except_bind_error {ε α β : Type} {x : Except ε α} {f : α → Except ε β} {e : ε}
    (h : (x >>= f) = .error e) : x = .error e ∨ ∃ a, x = .ok a ∧ f a = .error e := by
  cases x with
  | ok a => exact Or.inr ⟨a, rfl, h⟩
  | error e₁ =>
    simp only [Bind.bind, Except.bind, Except.error.injEq] at h
    exact Or.inl (by rw [h])

theorem except_map_ok {ε α β : Type} {x : Except ε α} {g : α → β} {b : β}
    (h : x.map g = .ok b) : ∃ a, x = .ok a ∧ g a = b := by
  cases x with
  | ok a => exact ⟨a, rfl, by simpa [Except.map] using h⟩
  | error e₁ => exact absurd h (by simp [Except.map])

theorem except_map_error {ε α β : Type} {x : Except ε α} {g : α → β} {e : ε}
    (h : x.map g = .error e) : x = .error e := by
  cases x with
  | ok a => exact absurd h (by simp [Except.map])
  | error e₁ => simpa [Except.map] using h

theorem eq_typeMismatch_of_ne_malformed {e : DecodeError} (h : e ≠ .malformedDocument) :
    ∃ s, e = .typeMismatch s := by
  cases e with
  | typeMismatch s => exact ⟨s, rfl⟩
  | malformedDocument => exact absurd rfl h

theorem decodeOpt_error {α : Type} {f : Json → Except DecodeError α} {x : Option Json}
    {e : DecodeError} (h : decodeOpt f x = .error e) : ∃ v, x = some v ∧ f v = .error e := by
  match x with
  | none => exact absurd h (by simp [decodeOpt])
  | some .null => exact absurd h (by simp [decodeOpt])
  | some (.bool b) => exact ⟨_, rfl, except_map_error h⟩
  | some (.num n) => exact ⟨_, rfl, except_map_error h⟩
  | some (.str s) => exact ⟨_, rfl, except_map_error h⟩
  | some (.arr xs) => exact ⟨_, rfl, except_map_error h⟩
  | some (.obj kvs) => exact ⟨_, rfl, except_map_error h⟩

theorem decodeOpt_ok {α : Type} {f : Json → Except DecodeError α} {x : Option Json}
    {r : Option α} (h : decodeOpt f x = .ok r) :
    r = none ∨ ∃ v a, x = some v ∧ f v = .ok a ∧ r = some a := by
  match x with
  | none => exact Or.inl (by simpa [decodeOpt] using h.symm)
  | some .null => exact Or.inl (by simpa [decodeOpt] using h.symm)
  | some (.bool b) =>
    obtain ⟨a, ha, hr⟩ := except_map_ok h
    exact Or.inr ⟨_, a, rfl, ha, hr.symm⟩
  | some (.num n) =>
    obtain ⟨a, ha, hr⟩ := except_map_ok h
    exact Or.inr ⟨_, a, rfl, ha, hr.symm⟩
  | some (.str s) =>
    obtain ⟨a, ha, hr⟩ := except_map_ok h
    exact Or.inr ⟨_, a, rfl, ha, hr.symm⟩
  | some (.arr xs) =>
    obtain ⟨a, ha, hr⟩ := except_map_ok h
    exact Or.inr ⟨_, a, rfl, ha, hr.symm⟩
  | some (.obj kvs) =>
    obtain ⟨a, ha, hr⟩ := except_map_ok h
    exact Or.inr ⟨_, a, rfl, ha, hr.symm⟩

theorem decodeEach_not_ok_of_mem {α : Type} {f : Json → Except DecodeError α} {xs : List Json}
    {j : Json} {e : DecodeError} (hj : j ∈ xs) (he : f j = .error e) :
    ∀ ys, decodeEach f xs ≠ .ok ys := by
  induction xs with
  | nil => cases hj
  | cons a t ih =>
    intro ys hys
    simp only [decodeEach] at hys
    obtain ⟨b, hb, hys⟩ := except_bind_ok hys
    obtain ⟨bs, hbs, _⟩ := except_bind_ok hys
    rcases List.mem_cons.mp hj with rfl | hj
    · rw [he] at hb
      cases hb
    · exact ih hj bs hbs

theorem decodeEach_error_src {α : Type} {f : Json → Except DecodeError α} {xs : List Json}
    {e : DecodeError} (h : decodeEach f xs = .error e) : ∃ j ∈ xs, f j = .error e := by
  induction xs with
  | nil => exact absurd h (by simp [decodeEach])
  | cons a t ih =>
    simp only [decodeEach] at h
    rcases except_bind_error h with h | ⟨b, hb, h⟩
    · exact ⟨a, List.mem_cons_self _ _, h⟩
    · rcases except_bind_error h with h | ⟨bs, hbs, h⟩
      · obtain ⟨j, hj, hfj⟩ := ih h
        exact ⟨j, List.mem_cons_of_mem _ hj, hfj⟩
      · cases h

theorem decodeString_error_tm {j : Json} {e : DecodeError} (h : decodeString j = .error e) :
    e ≠ .malformedDocument := by
  cases j <;> simp only [decodeString] at h <;> cases h <;> simp

theorem decodeStringList_error_tm {j : Json} {e : DecodeError}
    (h : decodeStringList j = .error e) : e ≠ .malformedDocument := by
  cases j <;> simp only [decodeStringList] at h
  case arr xs =>
    obtain ⟨j₀, _, hj₀⟩ := decodeEach_error_src h
    exact decodeString_error_tm hj₀
  all_goals cases h <;> simp

theorem decodeExtensions_error_tm {j : Json} {e : DecodeError}
    (h : decodeExtensions j = .error e) : e ≠ .malformedDocument := by
  cases j <;> simp only [decodeExtensions] at h <;> cases h <;> simp

theorem decodeOpt_error_tm {α : Type} {f : Json → Except DecodeError α} {x : Option Json}
    {e : DecodeError} (hf : ∀ v e₂, f v = .error e₂ → e₂ ≠ .malformedDocument)
    (h : decodeOpt f x = .error e) : e ≠ .malformedDocument := by
  obtain ⟨v, _, hv⟩ := decodeOpt_error h
  exact hf v e hv

theorem projectOfLookups_error_tm {n sp inc exc ext : Option Json} {e : DecodeError}
    (h : projectOfLookups n sp inc exc ext = .error e) : e ≠ .malformedDocument := by
  simp only [projectOfLookups] at h
  rcases except_bind_error h with h | ⟨a₁, _, h⟩
  · exact decodeOpt_error_tm (fun v e₂ hv => decodeString_error_tm hv) h
  rcases except_bind_error h with h | ⟨a₂, _, h⟩
  · exact decodeOpt_error_tm (fun v e₂ hv => decodeString_error_tm hv) h
  rcases except_bind_error h with h | ⟨a₃, _, h⟩
  · exact decodeOpt_error_tm (fun v e₂ hv => decodeStringList_error_tm hv) h
  rcases except_bind_error h with h | ⟨a₄, _, h⟩
  · exact decodeOpt_error_tm (fun v e₂ hv => decodeStringList_error_tm hv) h
  rcases except_bind_error h with h | ⟨a₅, _, h⟩
  · exact decodeOpt_error_tm (fun v e₂ hv => decodeExtensions_error_tm hv) h
  cases h

theorem decodeProject_error_tm {j : Json} {e : DecodeError}
    (h : decodeProject j = .error e) : e ≠ .malformedDocument := by
  cases j <;> simp only [decodeProject] at h
  case obj kvs => exact projectOfLookups_error_tm h
  all_goals cases h <;> simp

theorem decodeEntries_error_tm {l : List (String × Json)} {e : DecodeError}
    (h : decodeEntries l = .error e) : e ≠ .malformedDocument := by
  induction l with
  | nil => exact absurd h (by simp [decodeEntries])
  | cons q t ih =>
    obtain ⟨k, v⟩ := q
    simp only [decodeEntries] at h
    rcases except_bind_error h with h | ⟨p, _, h⟩
    · exact decodeProject_error_tm h
    · rcases except_bind_error h with h | ⟨ps, _, h⟩
      · exact ih h
      · cases h

theorem decodeProjects_error_tm {j : Json} {e : DecodeError}
    (h : decodeProjects j = .error e) : e ≠ .malformedDocument := by
  cases j <;> simp only [decodeProjects] at h
  case obj kvs => exact decodeEntries_error_tm (except_map_error h)
  all_goals cases h <;> simp

theorem decodeConfiguration_obj_error_tm {kvs : List (String × Json)} {e : DecodeError}
    (h : decodeConfiguration (.obj kvs) = .error e) : e ≠ .malformedDocument := by
  simp only [decodeConfiguration] at h
  rcases except_bind_error h with h | ⟨ps, _, h⟩
  · exact decodeOpt_error_tm (fun v e₂ hv => decodeProjects_error_tm hv) h
  rcases except_bind_error h with h | ⟨r, _, h⟩
  · exact decodeProject_error_tm h
  cases h

theorem decodeConfiguration_obj_ok {kvs : List (String × Json)} {c : GraphQLConfiguration}
    (h : decodeConfiguration (.obj kvs) = .ok c) :
    decodeOpt decodeProjects (lookupKey kvs "projects") = .ok c.projects ∧
      decodeProject (.obj (kvs.filter (fun p => p.1 ≠ "projects"))) = .ok c.root := by
  simp only [decodeConfiguration] at h
  obtain ⟨ps, hps, h⟩ := except_bind_ok h
  obtain ⟨r, hr, h⟩ := except_bind_ok h
  obtain rfl := (Except.ok.inj h).symm
  exact ⟨hps, hr⟩

theorem projectOfLookups_ok {n sp inc exc ext : Option Json} {p : GraphQLProjectConfiguration}
    (h : projectOfLookups n sp inc exc ext = .ok p) :
    decodeOpt decodeString n = .ok p.name ∧
      decodeOpt decodeString sp = .ok p.schema_path ∧
      decodeOpt decodeStringList inc = .ok p.includes ∧
      decodeOpt decodeStringList exc = .ok p.excludes ∧
      decodeOpt decodeExtensions ext = .ok p.extensions := by
  simp only [projectOfLookups] at h
  obtain ⟨a₁, h₁, h⟩ := except_bind_ok h
  obtain ⟨a₂, h₂, h⟩ := except_bind_ok h
  obtain ⟨a₃, h₃, h⟩ := except_bind_ok h
  obtain ⟨a₄, h₄, h⟩ := except_bind_ok h
  obtain ⟨a₅, h₅, h⟩ := except_bind_ok h
  obtain rfl := (Except.ok.inj h).symm
  exact ⟨h₁, h₂, h₃, h₄, h₅⟩

theorem mem_foldl_insert {α : Type} (l : List (String × α)) :
    ∀ (m : List (String × α)) (q : String × α),
      q ∈ l.foldl (fun acc p => insertBTree p.1 p.2 acc) m → q ∈ m ∨ q ∈ l := by
  induction l with
  | nil =>
    intro m q h
    exact Or.inl h
  | cons p t ih =>
    intro m q h
    rcases ih _ q h with h | h
    · rcases mem_insertBTree h with h | h
      · exact Or.inr (by simp [h])
      · exact Or.inl h
    · exact Or.inr (List.mem_cons_of_mem _ h)

theorem mem_fromEntries {α : Type} {l : List (String × α)} {q : String × α}
    (h : q ∈ fromEntries l) : q ∈ l := by
  rcases mem_foldl_insert l [] q h with h | h
  · cases h
  · exact h

theorem nodup_keys_of_sortedKeys {α : Type} {l : List (String × α)} (h : SortedKeys l) :
    (l.map Prod.fst).Nodup := by
  rw [List.Nodup, List.pairwise_map]
  exact h.imp (fun hlt => keyLtb_ne hlt)

theorem lookupKey_of_mem_nodup {α : Type} {l : List (String × α)} {k : String} {v : α}
    (hnd : (l.map Prod.fst).Nodup) (h : (k, v) ∈ l) : lookupKey l k = some v := by
  induction l with
  | nil => cases h
  | cons q t ih =>
    obtain ⟨k₁, v₁⟩ := q
    simp only [List.map_cons, List.nodup_cons] at hnd
    rcases List.mem_cons.mp h with he | h
    · cases he
      rw [lookupKey_cons, if_pos rfl]
    · have hne : k₁ ≠ k := fun heq => hnd.1 (heq ▸ List.mem_map_of_mem Prod.fst h)
      rw [lookupKey_cons, if_neg hne]
      exact ih hnd.2 h

theorem decodeEach_encodeString (xs : List String) :
    decodeEach decodeString (xs.map Json.str) = .ok xs := by
  induction xs with
  | nil => rfl
  | cons s t ih =>
    simp only [List.map_cons, decodeEach]
    rw [ih]
    rfl

theorem decodeOpt_encodeOpt_str (n : Option String) :
    decodeOpt decodeString (some (encodeOpt Json.str n)) = .ok n := by
  cases n <;> rfl

theorem decodeOpt_encodeOpt_list (xs : Option (List String)) :
    decodeOpt decodeStringList (some (encodeOpt encodeStringList xs)) = .ok xs := by
  cases xs with
  | none => rfl
  | some l =>
    show (decodeStringList (.arr (l.map Json.str))).map some = .ok (some l)
    have h : decodeStringList (.arr (l.map Json.str)) = .ok l := decodeEach_encodeString l
    rw [h]
    rfl

theorem decodeOpt_encodeOpt_ext {ext : Option (List (String × Json))}
    (hs : ∀ e, ext = some e → SortedKeys e) :
    decodeOpt decodeExtensions (some (encodeOpt Json.obj ext)) = .ok ext := by
  cases ext with
  | none => rfl
  | some e =>
    show (decodeExtensions (.obj e)).map some = .ok (some e)
    have h : decodeExtensions (.obj e) = .ok e := by
      simp only [decodeExtensions, fromEntries_of_sorted (hs e rfl)]
    rw [h]
    rfl

theorem decodeProject_encodeProject {p : GraphQLProjectConfiguration} (hp : ProjectWF p) :
    decodeProject (encodeProject p) = .ok p := by
  obtain ⟨n, sp, inc, exc, ext⟩ := p
  show projectOfLookups (some (encodeOpt Json.str n)) (some (encodeOpt Json.str sp))
      (some (encodeOpt encodeStringList inc)) (some (encodeOpt encodeStringList exc))
      (some (encodeOpt Json.obj ext)) = .ok ⟨n, sp, inc, exc, ext⟩
  simp only [projectOfLookups, decodeOpt_encodeOpt_str, decodeOpt_encodeOpt_list,
    decodeOpt_encodeOpt_ext hp, Bind.bind, Except.bind]

theorem decodeEntries_encode {m : List (String × GraphQLProjectConfiguration)}
    (hm : ∀ q ∈ m, ProjectWF q.2) :
    decodeEntries (m.map (fun q => (q.1, encodeProject q.2))) = .ok m := by
  induction m with
  | nil => rfl
  | cons q t ih =>
    obtain ⟨k, p⟩ := q
    simp only [List.map_cons, decodeEntries]
    rw [decodeProject_encodeProject (hm (k, p) (List.mem_cons_self _ _)),
      ih (fun q hq => hm q (List.mem_cons_of_mem _ hq))]
    rfl

theorem decodeProjects_encodeProjects {m : List (String × GraphQLProjectConfiguration)}
    (hs : SortedKeys m) (hm : ∀ q ∈ m, ProjectWF q.2) :
    decodeProjects (encodeProjects m) = .ok m := by
  show (decodeEntries (m.map (fun q => (q.1, encodeProject q.2)))).map fromEntries = .ok m
  rw [decodeEntries_encode hm]
  show Except.ok (fromEntries m) = .ok m
  rw [fromEntries_of_sorted hs]

theorem lookupKey_cons_self {α : Type} {k : String} {v : α} {l : List (String × α)} :
    lookupKey ((k, v) :: l) k = some v := by
  rw [lookupKey_cons, if_pos rfl]

theorem lookupKey_cons_ne {α : Type} {k₁ k : String} {v : α} {l : List (String × α)}
    (h : k₁ ≠ k) : lookupKey ((k₁, v) :: l) k = lookupKey l k := by
  rw [lookupKey_cons, if_neg h]

theorem lookupKey_filter_projects {l : List (String × Json)} {k : String}
    (hk : k ≠ "projects") :
    lookupKey (l.filter (fun p => p.1 ≠ "projects")) k = lookupKey l k := by
  induction l with
  | nil => rfl
  | cons p t ih =>
    obtain ⟨k₁, v₁⟩ := p
    by_cases h : k₁ = k
    · subst h
      rw [List.filter_cons, if_pos (by simpa using hk)]
      rw [lookupKey_cons_self, lookupKey_cons_self]
    · cases hqk : decide (k₁ ≠ "projects") with
      | true =>
        rw [List.filter_cons, if_pos (by simpa using hqk)]
        rw [lookupKey_cons_ne h, lookupKey_cons_ne h, ih]
      | false =>
        rw [List.filter_cons, if_neg (by simp [of_decide_eq_false hqk]), ih,
          lookupKey_cons_ne h]

theorem decodeOpt_encodeOpt_projects {ps : Option (List (String × GraphQLProjectConfiguration))}
    (h : ∀ m, ps = some m → SortedKeys m ∧ ∀ q ∈ m, ProjectWF q.2) :
    decodeOpt decodeProjects (some (encodeOpt (fun m => encodeProjects m) ps)) = .ok ps := by
  cases ps with
  | none => rfl
  | some m =>
    obtain ⟨hs, hw⟩ := h m rfl
    show (decodeProjects (encodeProjects m)).map some = .ok (some m)
    rw [decodeProjects_encodeProjects hs hw]
    rfl

theorem decodeEntries_ok {l : List (String × Json)}
    {ps : List (String × GraphQLProjectConfiguration)} (h : decodeEntries l = .ok ps) :
    List.Forall₂ (fun a b => a.1 = b.1 ∧ decodeProject a.2 = .ok b.2) l ps := by
  induction l generalizing ps with
  | nil =>
    obtain rfl := Except.ok.inj h
    exact List.Forall₂.nil
  | cons q t ih =>
    obtain ⟨k, v⟩ := q
    simp only [decodeEntries] at h
    obtain ⟨p, hp, h⟩ := except_bind_ok h
    obtain ⟨ts, hts, h⟩ := except_bind_ok h
    obtain rfl := Except.ok.inj h
    exact List.Forall₂.cons ⟨rfl, hp⟩ (ih hts)

theorem forall₂_keys_eq {r : (String × Json) → (String × GraphQLProjectConfiguration) → Prop}
    (hr : ∀ a b, r a b → a.1 = b.1) {l : List (String × Json)}
    {ps : List (String × GraphQLProjectConfiguration)} (h : List.Forall₂ r l ps) :
    l.map Prod.fst = ps.map Prod.fst := by
  induction h with
  | nil => rfl
  | cons h₁ h₂ ih => simp [hr _ _ h₁, ih]

theorem forall₂_mem_left {α β : Type} {r : α → β → Prop} {l : List α} {ps : List β}
    (h : List.Forall₂ r l ps) {a : α} (ha : a ∈ l) : ∃ b ∈ ps, r a b := by
  induction h with
  | nil => cases ha
  | cons h₁ h₂ ih =>
    rcases List.mem_cons.mp ha with rfl | ha
    · exact ⟨_, List.mem_cons_self _ _, h₁⟩
    · obtain ⟨b, hb, hr⟩ := ih ha
      exact ⟨b, List.mem_cons_of_mem _ hb, hr⟩

theorem forall₂_mem_right {α β : Type} {r : α → β → Prop} {l : List α} {ps : List β}
    (h : List.Forall₂ r l ps) {b : β} (hb : b ∈ ps) : ∃ a ∈ l, r a b := by
  induction h with
  | nil => cases hb
  | cons h₁ h₂ ih =>
    rcases List.mem_cons.mp hb with rfl | hb
    · exact ⟨_, List.mem_cons_self _ _, h₁⟩
    · obtain ⟨a, ha, hr⟩ := ih hb
      exact ⟨a, List.mem_cons_of_mem _ ha, hr⟩

/-- C1: decoding the re-encoding of any `GraphQLConfiguration` value
(any value whose `BTreeMap` components carry the sortedness invariant
the Rust type guarantees; numbers are embedded exactly, so every
extension value survives the format round-trip) yields the original
value: `decode(encode(c)) = c`. -/
theorem c1_decode_encode_roundtrip {c : GraphQLConfiguration} (hc : ConfigWF c) :
    decodeConfiguration (encodeConfiguration c) = .ok c := by
  obtain ⟨ps, root⟩ := c
  obtain ⟨hroot, hps⟩ := hc
  show decodeOpt decodeProjects (some (encodeOpt (fun m => encodeProjects m) ps)) >>=
      (fun projects => decodeProject (encodeProject root) >>=
        fun r => Except.ok (GraphQLConfiguration.mk projects r)) =
      .ok (GraphQLConfiguration.mk ps root)
  rw [decodeOpt_encodeOpt_projects hps]
  show decodeProject (encodeProject root) >>=
      (fun r => Except.ok (GraphQLConfiguration.mk ps r)) = .ok (GraphQLConfiguration.mk ps root)
  rw [decodeProject_encodeProject hroot]
  rfl

/-- C1 witness: the round-trip at a concrete configuration exercising
projects, extensions (with a large integer) and list fields. -/
theorem c1_decode_encode_roundtrip_witness :
    ConfigWF
        ⟨some [("p", ⟨some "P", none, none, none, some [("u", Json.num 1)]⟩)],
          ⟨none, some "./root.graphql", some ["./g"], none,
            some [("a", Json.num 1532367255884), ("b", Json.null)]⟩⟩ ∧
      decodeConfiguration (encodeConfiguration
        ⟨some [("p", ⟨some "P", none, none, none, some [("u", Json.num 1)]⟩)],
          ⟨none, some "./root.graphql", some ["./g"], none,
            some [("a", Json.num 1532367255884), ("b", Json.null)]⟩⟩) =
        .ok ⟨some [("p", ⟨some "P", none, none, none, some [("u", Json.num 1)]⟩)],
          ⟨none, some "./root.graphql", some ["./g"], none,
            some [("a", Json.num 1532367255884), ("b", Json.null)]⟩⟩ := by
  have hwf : ConfigWF
      ⟨some [("p", ⟨some "P", none, none, none, some [("u", Json.num 1)]⟩)],
        ⟨none, some "./root.graphql", some ["./g"], none,
          some [("a", Json.num 1532367255884), ("b", Json.null)]⟩⟩ := by
    refine ⟨fun e he => ?_, fun m hm => ?_⟩
    · cases he
      decide
    · cases hm
      refine ⟨by decide, fun q hq => ?_⟩
      rcases List.mem_cons.mp hq with rfl | hq
      · intro e he
        cases he
        decide
      · cases hq
  exact ⟨hwf, c1_decode_encode_roundtrip hwf⟩

/-- C8: decoding a top-level input that is not an object fails with
`MalformedDocument`; a failure inside any single project entry aborts
the whole decode with a single error; and a failure in any of the five
root fields likewise aborts the whole decode (the `Except` result
carries either one error or a complete configuration, never a partial
one). -/
theorem c8_malformed_and_fail_fast :
    (∀ j : Json, (∀ kvs, j ≠ .obj kvs) →
        decodeConfiguration j = .error .malformedDocument) ∧
      (∀ (kvs pkvs : List (String × Json)) (k : String) (v : Json) (e : DecodeError),
        lookupKey kvs "projects" = some (.obj pkvs) → (k, v) ∈ pkvs →
        decodeProject v = .error e →
        ∃ e₂, decodeConfiguration (.obj kvs) = .error e₂) ∧
      (∀ (kvs : List (String × Json)) (e : DecodeError),
        (decodeOpt decodeString (lookupKey kvs "name") = .error e ∨
          decodeOpt decodeString (lookupKey kvs "schemaPath") = .error e ∨
          decodeOpt decodeStringList (lookupKey kvs "includes") = .error e ∨
          decodeOpt decodeStringList (lookupKey kvs "excludes") = .error e ∨
          decodeOpt decodeExtensions (lookupKey kvs "extensions") = .error e) →
        ∃ e₂, decodeConfiguration (.obj kvs) = .error e₂) := by
  refine ⟨?_, ?_, ?_⟩
  · intro j hj
    cases j with
    | obj kvs => exact absurd rfl (hj kvs)
    | null => rfl
    | bool b => rfl
    | num n => rfl
    | str s => rfl
    | arr xs => rfl
  · intro kvs pkvs k v e hp hm hv
    cases hres : decodeConfiguration (.obj kvs) with
    | error e₂ => exact ⟨e₂, rfl⟩
    | ok c =>
      exfalso
      obtain ⟨h₁, _⟩ := decodeConfiguration_obj_ok hres
      rw [hp] at h₁
      have h₂ : (decodeProjects (.obj pkvs)).map some = .ok c.projects := h₁
      obtain ⟨m, hm₂, _⟩ := except_map_ok h₂
      have h₃ : (decodeEntries pkvs).map fromEntries = .ok m := hm₂
      obtain ⟨es, hes, _⟩ := except_map_ok h₃
      obtain ⟨b, _, _, hb⟩ := forall₂_mem_left (decodeEntries_ok hes) hm
      rw [hv] at hb
      cases hb
  · intro kvs e hroot
    cases hres : decodeConfiguration (.obj kvs) with
    | error e₂ => exact ⟨e₂, rfl⟩
    | ok c =>
      exfalso
      obtain ⟨_, h₂⟩ := decodeConfiguration_obj_ok hres
      obtain ⟨hn, hsp, hinc, hexc, hext⟩ := projectOfLookups_ok h₂
      rw [lookupKey_filter_projects (by decide)] at hn
      rw [lookupKey_filter_projects (by decide)] at hsp
      rw [lookupKey_filter_projects (by decide)] at hinc
      rw [lookupKey_filter_projects (by decide)] at hexc
      rw [lookupKey_filter_projects (by decide)] at hext
      rcases hroot with h | h | h | h | h
      · rw [h] at hn
        cases hn
      · rw [h] at hsp
        cases hsp
      · rw [h] at hinc
        cases hinc
      · rw [h] at hexc
        cases hexc
      · rw [h] at hext
        cases hext

/-- C8 witness: a string document fails with `MalformedDocument`; a
document whose single project body is a number fails as a whole; and a
document whose root `name` field is a number fails as a whole. -/
theorem c8_malformed_and_fail_fast_witness :
    decodeConfiguration (Json.str "nope") = .error .malformedDocument ∧
      (∃ e₂, decodeConfiguration (.obj [("projects", .obj [("p", Json.num 3)])]) =
        .error e₂) ∧
      ∃ e₂, decodeConfiguration (.obj [("name", Json.num 3)]) = .error e₂ :=
  ⟨c8_malformed_and_fail_fast.1 (Json.str "nope") (fun kvs h => Json.noConfusion h),
    c8_malformed_and_fail_fast.2.1 [("projects", .obj [("p", Json.num 3)])] [("p", Json.num 3)]
      "p" (Json.num 3) (.typeMismatch "struct GraphQLProjectConfiguration") rfl
      (List.mem_cons_self _ _) rfl,
    c8_malformed_and_fail_fast.2.2 [("name", Json.num 3)] (.typeMismatch "a string")
      (Or.inl rfl)⟩

/-- C3 counterexample: the re-encoding of the all-absent configuration
emits every field key with an explicit `null` value — in particular the
absent `projects` field produces a `projects` key bound to `null` —
instead of omitting absent fields. -/
theorem c3_counterexample :
    encodeConfiguration ⟨none, ⟨none, none, none, none, none⟩⟩ =
      .obj [("excludes", .null), ("extensions", .null), ("includes", .null),
            ("name", .null), ("projects", .null), ("schemaPath", .null)] ∧
      lookupKey (objFields (encodeConfiguration ⟨none, ⟨none, none, none, none, none⟩⟩))
        "projects" = some Json.null :=
  ⟨rfl, rfl⟩

theorem encodeOpt_eq_null_iff {α : Type} {f : α → Json} (hf : ∀ a, f a ≠ .null)
    {x : Option α} : encodeOpt f x = .null ↔ x = none := by
  cases x with
  | none => simp [encodeOpt]
  | some a => simp [encodeOpt, hf a]

/-- C3 amended: the re-encoding always emits exactly the six camel-case
keys; a present field is emitted under its key, and an absent (`None`)
field is emitted as an explicit `null` (absent `projects` produces
`projects: null`), not omitted. -/
theorem c3_amended_explicit_nulls (c : GraphQLConfiguration) :
    (objFields (encodeConfiguration c)).map Prod.fst =
      ["excludes", "extensions", "includes", "name", "projects", "schemaPath"] ∧
      (lookupKey (objFields (encodeConfiguration c)) "projects" = some .null ↔
        c.projects = none) ∧
      (lookupKey (objFields (encodeConfiguration c)) "name" = some .null ↔
        c.root.name = none) ∧
      (lookupKey (objFields (encodeConfiguration c)) "schemaPath" = some .null ↔
        c.root.schema_path = none) ∧
      (lookupKey (objFields (encodeConfiguration c)) "includes" = some .null ↔
        c.root.includes = none) ∧
      (lookupKey (objFields (encodeConfiguration c)) "excludes" = some .null ↔
        c.root.excludes = none) ∧
      (lookupKey (objFields (encodeConfiguration c)) "extensions" = some .null ↔
        c.root.extensions = none) := by
  refine ⟨rfl, ?_, ?_, ?_, ?_, ?_, ?_⟩
  · show some (encodeOpt (fun m => encodeProjects m) c.projects) = some Json.null ↔ _
    rw [Option.some_inj]
    exact encodeOpt_eq_null_iff (fun m => by simp [encodeProjects])
  · show some (encodeOpt Json.str c.root.name) = some Json.null ↔ _
    rw [Option.some_inj]
    exact encodeOpt_eq_null_iff (fun s => by simp)
  · show some (encodeOpt Json.str c.root.schema_path) = some Json.null ↔ _
    rw [Option.some_inj]
    exact encodeOpt_eq_null_iff (fun s => by simp)
  · show some (encodeOpt encodeStringList c.root.includes) = some Json.null ↔ _
    rw [Option.some_inj]
    exact encodeOpt_eq_null_iff (fun xs => by simp [encodeStringList])
  · show some (encodeOpt encodeStringList c.root.excludes) = some Json.null ↔ _
    rw [Option.some_inj]
    exact encodeOpt_eq_null_iff (fun xs => by simp [encodeStringList])
  · show some (encodeOpt Json.obj c.root.extensions) = some Json.null ↔ _
    rw [Option.some_inj]
    exact encodeOpt_eq_null_iff (fun kvs => by simp)

/-- C2: a successful decode decomposes into the project-map decode of
the `projects` lookup and the `root` decode of the same object with the
`projects` key filtered out; consequently the `projects` key only ever
feeds the project map, the remaining keys only ever feed `root`, and
any two objects agreeing outside `projects` decode to the same root. -/
theorem c2_projects_reserved_and_flatten {kvs : List (String × Json)}
    {c : GraphQLConfiguration} (h : decodeConfiguration (.obj kvs) = .ok c) :
    decodeOpt decodeProjects (lookupKey kvs "projects") = .ok c.projects ∧
      decodeProject (.obj (kvs.filter (fun p => p.1 ≠ "projects"))) = .ok c.root ∧
      ∀ (kvs₂ : List (String × Json)) (c₂ : GraphQLConfiguration),
        decodeConfiguration (.obj kvs₂) = .ok c₂ →
        kvs₂.filter (fun p => p.1 ≠ "projects") = kvs.filter (fun p => p.1 ≠ "projects") →
        c₂.root = c.root := by
  obtain ⟨h₁, h₂⟩ := decodeConfiguration_obj_ok h
  refine ⟨h₁, h₂, fun kvs₂ c₂ hc₂ hf => ?_⟩
  obtain ⟨_, h₂b⟩ := decodeConfiguration_obj_ok hc₂
  rw [hf, h₂] at h₂b
  exact (Except.ok.inj h₂b).symm

/-- C2 witness: the decomposition at a document with both a root
`schemaPath` and one project. -/
theorem c2_projects_reserved_and_flatten_witness :
    decodeOpt decodeProjects (lookupKey [("schemaPath", Json.str "./r"),
        ("projects", Json.obj [("p", Json.obj [])])] "projects") =
      .ok (some [("p", ⟨none, none, none, none, none⟩)]) ∧
      decodeProject (.obj ([("schemaPath", Json.str "./r"),
          ("projects", Json.obj [("p", Json.obj [])])].filter
        (fun p => p.1 ≠ "projects"))) = .ok ⟨none, some "./r", none, none, none⟩ := by
  have h := @c2_projects_reserved_and_flatten
    [("schemaPath", Json.str "./r"), ("projects", Json.obj [("p", Json.obj [])])]
    ⟨some [("p", ⟨none, none, none, none, none⟩)], ⟨none, some "./r", none, none, none⟩⟩ rfl
  exact ⟨h.1, h.2.1⟩

theorem decodeConfiguration_cons_null_field {kvs : List (String × Json)} {k : String}
    (hk : k ∈ (["name", "schemaPath", "includes", "excludes", "extensions"] : List String))
    (habs : lookupKey kvs k = none) :
    decodeConfiguration (.obj ((k, Json.null) :: kvs)) = decodeConfiguration (.obj kvs) := by
  fin_cases hk
  · have hf : ((("name" : String), Json.null) :: kvs).filter (fun p => p.1 ≠ "projects") =
        ("name", Json.null) :: kvs.filter (fun p => p.1 ≠ "projects") := by simp
    have hF : lookupKey (kvs.filter (fun p => p.1 ≠ "projects")) "name" = none := by
      rw [lookupKey_filter_projects (by decide), habs]
    simp only [decodeConfiguration, hf,
      lookupKey_cons_ne (show ("name" : String) ≠ "projects" by decide),
      decodeProject, lookupKey_cons_self,
      lookupKey_cons_ne (show ("name" : String) ≠ "schemaPath" by decide),
      lookupKey_cons_ne (show ("name" : String) ≠ "includes" by decide),
      lookupKey_cons_ne (show ("name" : String) ≠ "excludes" by decide),
      lookupKey_cons_ne (show ("name" : String) ≠ "extensions" by decide), hF]
    rfl
  · have hf : ((("schemaPath" : String), Json.null) :: kvs).filter (fun p => p.1 ≠ "projects") =
        ("schemaPath", Json.null) :: kvs.filter (fun p => p.1 ≠ "projects") := by simp
    have hF : lookupKey (kvs.filter (fun p => p.1 ≠ "projects")) "schemaPath" = none := by
      rw [lookupKey_filter_projects (by decide), habs]
    simp only [decodeConfiguration, hf,
      lookupKey_cons_ne (show ("schemaPath" : String) ≠ "projects" by decide),
      decodeProject, lookupKey_cons_self,
      lookupKey_cons_ne (show ("schemaPath" : String) ≠ "name" by decide),
      lookupKey_cons_ne (show ("schemaPath" : String) ≠ "includes" by decide),
      lookupKey_cons_ne (show ("schemaPath" : String) ≠ "excludes" by decide),
      lookupKey_cons_ne (show ("schemaPath" : String) ≠ "extensions" by decide), hF]
    rfl
  · have hf : ((("includes" : String), Json.null) :: kvs).filter (fun p => p.1 ≠ "projects") =
        ("includes", Json.null) :: kvs.filter (fun p => p.1 ≠ "projects") := by simp
    have hF : lookupKey (kvs.filter (fun p => p.1 ≠ "projects")) "includes" = none := by
      rw [lookupKey_filter_projects (by decide), habs]
    simp only [decodeConfiguration, hf,
      lookupKey_cons_ne (show ("includes" : String) ≠ "projects" by decide),
      decodeProject, lookupKey_cons_self,
      lookupKey_cons_ne (show ("includes" : String) ≠ "name" by decide),
      lookupKey_cons_ne (show ("includes" : String) ≠ "schemaPath" by decide),
      lookupKey_cons_ne (show ("includes" : String) ≠ "excludes" by decide),
      lookupKey_cons_ne (show ("includes" : String) ≠ "extensions" by decide), hF]
    rfl
  · have hf : ((("excludes" : String), Json.null) :: kvs).filter (fun p => p.1 ≠ "projects") =
        ("excludes", Json.null) :: kvs.filter (fun p => p.1 ≠ "projects") := by simp
    have hF : lookupKey (kvs.filter (fun p => p.1 ≠ "projects")) "excludes" = none := by
      rw [lookupKey_filter_projects (by decide), habs]
    simp only [decodeConfiguration, hf,
      lookupKey_cons_ne (show ("excludes" : String) ≠ "projects" by decide),
      decodeProject, lookupKey_cons_self,
      lookupKey_cons_ne (show ("excludes" : String) ≠ "name" by decide),
      lookupKey_cons_ne (show ("excludes" : String) ≠ "schemaPath" by decide),
      lookupKey_cons_ne (show ("excludes" : String) ≠ "includes" by decide),
      lookupKey_cons_ne (show ("excludes" : String) ≠ "extensions" by decide), hF]
    rfl
  · have hf : ((("extensions" : String), Json.null) :: kvs).filter (fun p => p.1 ≠ "projects") =
        ("extensions", Json.null) :: kvs.filter (fun p => p.1 ≠ "projects") := by simp
    have hF : lookupKey (kvs.filter (fun p => p.1 ≠ "projects")) "extensions" = none := by
      rw [lookupKey_filter_projects (by decide), habs]
    simp only [decodeConfiguration, hf,
      lookupKey_cons_ne (show ("extensions" : String) ≠ "projects" by decide),
      decodeProject, lookupKey_cons_self,
      lookupKey_cons_ne (show ("extensions" : String) ≠ "name" by decide),
      lookupKey_cons_ne (show ("extensions" : String) ≠ "schemaPath" by decide),
      lookupKey_cons_ne (show ("extensions" : String) ≠ "includes" by decide),
      lookupKey_cons_ne (show ("extensions" : String) ≠ "excludes" by decide), hF]
    rfl

/-- C4: for every optional field key (the five project fields and the
top-level `projects`), an object where the key is absent and the same
object with the key explicitly bound to `null` decode to the same
result. -/
theorem c4_null_equals_absent {kvs : List (String × Json)} {k : String}
    (hk : k ∈ (["name", "schemaPath", "includes", "excludes", "extensions",
      "projects"] : List String))
    (habs : lookupKey kvs k = none) :
    decodeConfiguration (.obj ((k, Json.null) :: kvs)) = decodeConfiguration (.obj kvs) := by
  fin_cases hk
  · exact decodeConfiguration_cons_null_field (by decide) habs
  · exact decodeConfiguration_cons_null_field (by decide) habs
  · exact decodeConfiguration_cons_null_field (by decide) habs
  · exact decodeConfiguration_cons_null_field (by decide) habs
  · exact decodeConfiguration_cons_null_field (by decide) habs
  · have hf : ((("projects" : String), Json.null) :: kvs).filter
        (fun p => p.1 ≠ "projects") = kvs.filter (fun p => p.1 ≠ "projects") := by simp
    simp only [decodeConfiguration, hf, lookupKey_cons_self, habs]
    rfl

/-- C4 witness: explicit `"name": null` decodes exactly like the object
without a `name` key. -/
theorem c4_null_equals_absent_witness :
    decodeConfiguration (.obj [("name", Json.null), ("schemaPath", Json.str "./s")]) =
      decodeConfiguration (.obj [("schemaPath", Json.str "./s")]) :=
  c4_null_equals_absent (by decide) rfl

theorem decodeConfiguration_eq_of_lookups {l r : List (String × Json)}
    (h : ∀ j, j ∈ (["name", "schemaPath", "includes", "excludes", "extensions",
        "projects"] : List String) → lookupKey l j = lookupKey r j) :
    decodeConfiguration (.obj l) = decodeConfiguration (.obj r) := by
  have h₁ := h "name" (by decide)
  have h₂ := h "schemaPath" (by decide)
  have h₃ := h "includes" (by decide)
  have h₄ := h "excludes" (by decide)
  have h₅ := h "extensions" (by decide)
  have h₆ := h "projects" (by decide)
  simp only [decodeConfiguration, decodeProject,
    lookupKey_filter_projects (show ("name" : String) ≠ "projects" by decide),
    lookupKey_filter_projects (show ("schemaPath" : String) ≠ "projects" by decide),
    lookupKey_filter_projects (show ("includes" : String) ≠ "projects" by decide),
    lookupKey_filter_projects (show ("excludes" : String) ≠ "projects" by decide),
    lookupKey_filter_projects (show ("extensions" : String) ≠ "projects" by decide),
    h₁, h₂, h₃, h₄, h₅, h₆]

/-- C7: keys matching none of the fixed camel-case field names are
ignored: inserting such a key (for example `schema_path`) anywhere into
the object leaves the decode result unchanged — it neither fails the
decode nor populates any field. -/
theorem c7_unknown_keys_ignored {kvs₁ kvs₂ : List (String × Json)} {k : String} {v : Json}
    (hk : k ∉ (["name", "schemaPath", "includes", "excludes", "extensions",
      "projects"] : List String)) :
    decodeConfiguration (.obj (kvs₁ ++ (k, v) :: kvs₂)) =
      decodeConfiguration (.obj (kvs₁ ++ kvs₂)) := by
  refine decodeConfiguration_eq_of_lookups (fun j hj => ?_)
  have hjk : j ≠ k := fun he => hk (he ▸ hj)
  rw [lookupKey_append, lookupKey_append, lookupKey_cons_ne (fun he => hjk he.symm)]

/-- C7 witness: the snake-case spelling `schema_path` is treated as
unknown (not matched to `schemaPath`) and ignored, also in the middle
of the object. -/
theorem c7_unknown_keys_ignored_witness :
    decodeConfiguration (.obj [("name", Json.str "N"),
        ("schema_path", Json.str "./schema.graphql"), ("schemaPath", Json.str "./s")]) =
      decodeConfiguration (.obj [("name", Json.str "N"), ("schemaPath", Json.str "./s")]) :=
  @c7_unknown_keys_ignored [("name", Json.str "N")] [("schemaPath", Json.str "./s")]
    "schema_path" (Json.str "./schema.graphql") (by decide)

theorem mem_of_lookupKey {α : Type} {l : List (String × α)} {k : String} {v : α}
    (h : lookupKey l k = some v) : (k, v) ∈ l := by
  induction l with
  | nil => cases h
  | cons q t ih =>
    obtain ⟨k₁, v₁⟩ := q
    by_cases hk : k₁ = k
    · subst hk
      rw [lookupKey_cons_self] at h
      obtain rfl := Option.some.inj h
      exact List.mem_cons_self _ _
    · rw [lookupKey_cons_ne hk] at h
      exact List.mem_cons_of_mem _ (ih h)

/-- C5: an `includes` or `excludes` key holding an array with a
non-string element makes the whole decode fail with a `TypeMismatch`
error — the element is neither coerced nor dropped, and no partial
result is returned. -/
theorem c5_nonstring_element_fails {kvs : List (String × Json)} {xs : List Json} {j : Json}
    (hin : lookupKey kvs "includes" = some (.arr xs) ∨
      lookupKey kvs "excludes" = some (.arr xs))
    (hj : j ∈ xs) (hns : ∀ s, j ≠ .str s) :
    ∃ m, decodeConfiguration (.obj kvs) = .error (.typeMismatch m) := by
  have hjerr : decodeString j = .error (.typeMismatch "a string") := by
    cases j with
    | str s => exact absurd rfl (hns s)
    | null => rfl
    | bool b => rfl
    | num n => rfl
    | arr a => rfl
    | obj o => rfl
  cases hres : decodeConfiguration (.obj kvs) with
  | error e =>
    obtain ⟨m, hm⟩ := eq_typeMismatch_of_ne_malformed (decodeConfiguration_obj_error_tm hres)
    exact ⟨m, hm ▸ rfl⟩
  | ok c =>
    exfalso
    obtain ⟨_, h₂⟩ := decodeConfiguration_obj_ok hres
    obtain ⟨_, _, hInc, hExc, _⟩ := projectOfLookups_ok h₂
    rcases hin with hin | hin
    · have hF : lookupKey (kvs.filter (fun p => p.1 ≠ "projects")) "includes" =
          some (.arr xs) := by rw [lookupKey_filter_projects (by decide), hin]
      rw [hF] at hInc
      have hInc₂ : (decodeEach decodeString xs).map some = .ok c.root.includes := hInc
      obtain ⟨ys, hys, _⟩ := except_map_ok hInc₂
      exact decodeEach_not_ok_of_mem hj hjerr ys hys
    · have hF : lookupKey (kvs.filter (fun p => p.1 ≠ "projects")) "excludes" =
          some (.arr xs) := by rw [lookupKey_filter_projects (by decide), hin]
      rw [hF] at hExc
      have hExc₂ : (decodeEach decodeString xs).map some = .ok c.root.excludes := hExc
      obtain ⟨ys, hys, _⟩ := except_map_ok hExc₂
      exact decodeEach_not_ok_of_mem hj hjerr ys hys

/-- C5 witness: `includes: ["a", 1]` makes the decode fail with a
`TypeMismatch`. -/
theorem c5_nonstring_element_fails_witness :
    ∃ m, decodeConfiguration (.obj [("includes", Json.arr [Json.str "a", Json.num 1])]) =
      .error (.typeMismatch m) :=
  @c5_nonstring_element_fails [("includes", Json.arr [Json.str "a", Json.num 1])]
    [Json.str "a", Json.num 1] (Json.num 1)
    (Or.inl rfl) (List.mem_cons_of_mem _ (List.mem_cons_self _ _))
    (fun s h => Json.noConfusion h)

/-- C6: an `extensions` key bound to an object decodes successfully
whatever the shapes of the values inside, and the values are stored
verbatim: the single-key document decodes to exactly the re-sorted
entries, and on unique-keyed input every key looks up to the exact
input value (in particular large integers are preserved exactly). -/
theorem c6_extensions_verbatim (m : List (String × Json)) :
    decodeConfiguration (.obj [("extensions", Json.obj m)]) =
      .ok ⟨none, ⟨none, none, none, none, some (fromEntries m)⟩⟩ ∧
      ((m.map Prod.fst).Nodup → ∀ k, lookupKey (fromEntries m) k = lookupKey m k) := by
  constructor
  · rfl
  · intro hnd k
    rw [lookupKey_fromEntries, lookupKey_reverse_of_nodup hnd]

/-- C6 witness: the spec's example — a large integer extension value is
preserved exactly. -/
theorem c6_extensions_verbatim_witness :
    decodeConfiguration (.obj [("extensions",
        Json.obj [("lastUpdatedAt", Json.num 1532367255884)])]) =
      .ok ⟨none, ⟨none, none, none, none,
        some (fromEntries [("lastUpdatedAt", Json.num 1532367255884)])⟩⟩ ∧
      lookupKey (fromEntries [("lastUpdatedAt", Json.num 1532367255884)]) "lastUpdatedAt" =
        some (Json.num 1532367255884) := by
  have h := c6_extensions_verbatim [("lastUpdatedAt", Json.num 1532367255884)]
  refine ⟨h.1, ?_⟩
  rw [h.2 (by decide) "lastUpdatedAt"]
  rfl

/-- C9: the decoded project map binds exactly the verbatim input keys
(no case conversion, no injection), and a project whose body has no
`name` key decodes with `name = none` — never defaulted to its map
key. -/
theorem c9_name_not_defaulted {pkvs : List (String × Json)}
    {m : List (String × GraphQLProjectConfiguration)}
    (hnd : (pkvs.map Prod.fst).Nodup)
    (hdec : decodeProjects (.obj pkvs) = .ok m) :
    (∀ k, (∃ v, (k, v) ∈ pkvs) ↔ ∃ p, (k, p) ∈ m) ∧
      ∀ k body, (k, Json.obj body) ∈ pkvs → lookupKey body "name" = none →
        ∃ p, lookupKey m k = some p ∧ p.name = none := by
  have hdec₂ : (decodeEntries pkvs).map fromEntries = .ok m := hdec
  obtain ⟨ps, hps, hfrom⟩ := except_map_ok hdec₂
  subst hfrom
  have hF := decodeEntries_ok hps
  have hkeys : pkvs.map Prod.fst = ps.map Prod.fst :=
    forall₂_keys_eq (fun a b hab => hab.1) hF
  have hndps : (ps.map Prod.fst).Nodup := hkeys ▸ hnd
  constructor
  · intro k
    constructor
    · rintro ⟨v, hv⟩
      obtain ⟨⟨bk, bv⟩, hb, hbk, _⟩ := forall₂_mem_left hF hv
      have hk : k = bk := hbk
      subst hk
      refine ⟨bv, mem_of_lookupKey ?_⟩
      rw [lookupKey_fromEntries, lookupKey_reverse_of_nodup hndps]
      exact lookupKey_of_mem_nodup hndps hb
    · rintro ⟨p, hp⟩
      obtain ⟨⟨ak, av⟩, ha, hak, _⟩ := forall₂_mem_right hF (mem_fromEntries hp)
      have hk : ak = k := hak
      subst hk
      exact ⟨av, ha⟩
  · intro k body hmem hname
    obtain ⟨⟨bk, bp⟩, hb, hbk, hbdec⟩ := forall₂_mem_left hF hmem
    have hk : k = bk := hbk
    subst hk
    obtain ⟨h₁, _, _, _, _⟩ := projectOfLookups_ok hbdec
    rw [hname] at h₁
    have h₂ : (Except.ok (none : Option String) : Except DecodeError (Option String)) =
        .ok bp.name := h₁
    have hpn : bp.name = none := (Except.ok.inj h₂).symm
    refine ⟨bp, ?_, hpn⟩
    rw [lookupKey_fromEntries, lookupKey_reverse_of_nodup hndps]
    exact lookupKey_of_mem_nodup hndps hb

/-- C9 witness: a project with no `name` key decodes with `name = none`
under its verbatim key. -/
theorem c9_name_not_defaulted_witness :
    ∃ p, lookupKey [(("projectA" : String),
        (⟨none, some "./x", none, none, none⟩ : GraphQLProjectConfiguration))] "projectA" =
      some p ∧ p.name = none := by
  have h := @c9_name_not_defaulted [("projectA", Json.obj [("schemaPath", Json.str "./x")])]
    [("projectA", ⟨none, some "./x", none, none, none⟩)] (by decide) rfl
  exact h.2 "projectA" [("schemaPath", Json.str "./x")] (List.mem_cons_self _ _) rfl

theorem decodeProject_ok_extensions_sorted {j : Json} {p : GraphQLProjectConfiguration}
    (h : decodeProject j = .ok p) : ∀ e, p.extensions = some e → SortedKeys e := by
  intro e he
  cases j with
  | obj kvs =>
    obtain ⟨_, _, _, _, h₅⟩ := projectOfLookups_ok h
    rw [he] at h₅
    rcases decodeOpt_ok h₅ with hnone | ⟨v, a, hv, ha, hsome⟩
    · cases hnone
    · obtain rfl := Option.some.inj hsome
      cases v with
      | obj kvs₂ =>
        obtain rfl := Except.ok.inj ha
        exact sortedKeys_fromEntries kvs₂
      | null => cases ha
      | bool b => cases ha
      | num n => cases ha
      | str s => cases ha
      | arr xs => cases ha
  | null => cases h
  | bool b => cases h
  | num n => cases h
  | str s => cases h
  | arr xs => cases h

theorem decodeProjects_ok_sorted {j : Json} {m : List (String × GraphQLProjectConfiguration)}
    (h : decodeProjects j = .ok m) :
    SortedKeys m ∧ ∀ q ∈ m, ∀ e, q.2.extensions = some e → SortedKeys e := by
  cases j with
  | obj pkvs =>
    have h₂ : (decodeEntries pkvs).map fromEntries = .ok m := h
    obtain ⟨es, hes, hfrom⟩ := except_map_ok h₂
    subst hfrom
    refine ⟨sortedKeys_fromEntries es, fun q hq e he => ?_⟩
    obtain ⟨a, ha, _, hdec⟩ := forall₂_mem_right (decodeEntries_ok hes) (mem_fromEntries hq)
    exact decodeProject_ok_extensions_sorted hdec e he
  | null => cases h
  | bool b => cases h
  | num n => cases h
  | str s => cases h
  | arr xs => cases h

/-- C10: every successful decode yields key-sorted, unique-keyed maps:
the `projects` map, the root `extensions` map and every project's
`extensions` map have strictly ascending lexicographic keys, whatever
the key order of the input. -/
theorem c10_sorted_maps {j : Json} {c : GraphQLConfiguration}
    (h : decodeConfiguration j = .ok c) :
    (∀ m, c.projects = some m → SortedKeys m ∧ (m.map Prod.fst).Nodup ∧
        ∀ q ∈ m, ∀ e, q.2.extensions = some e → SortedKeys e ∧ (e.map Prod.fst).Nodup) ∧
      (∀ e, c.root.extensions = some e → SortedKeys e ∧ (e.map Prod.fst).Nodup) := by
  cases j with
  | obj kvs =>
    obtain ⟨h₁, h₂⟩ := decodeConfiguration_obj_ok h
    constructor
    · intro m hm
      rw [hm] at h₁
      rcases decodeOpt_ok h₁ with hnone | ⟨v, a, hv, ha, hsome⟩
      · cases hnone
      · obtain rfl := Option.some.inj hsome
        obtain ⟨hs, hext⟩ := decodeProjects_ok_sorted ha
        exact ⟨hs, nodup_keys_of_sortedKeys hs, fun q hq e he =>
          ⟨hext q hq e he, nodup_keys_of_sortedKeys (hext q hq e he)⟩⟩
    · intro e he
      have hs := decodeProject_ok_extensions_sorted h₂ e he
      exact ⟨hs, nodup_keys_of_sortedKeys hs⟩
  | null => cases h
  | bool b => cases h
  | num n => cases h
  | str s => cases h
  | arr xs => cases h

/-- C10 witness: an input with reverse-ordered `projects` and
`extensions` keys decodes to lexicographically sorted maps. -/
theorem c10_sorted_maps_witness :
    SortedKeys [(("a" : String), (⟨none, none, none, none, none⟩ :
        GraphQLProjectConfiguration)), ("b", ⟨none, none, none, none, none⟩)] ∧
      SortedKeys [(("a" : String), Json.num 2), ("z", Json.num 1)] := by
  have h := @c10_sorted_maps
    (.obj [("projects", .obj [("b", .obj []), ("a", .obj [])]),
      ("extensions", .obj [("z", Json.num 1), ("a", Json.num 2)])])
    ⟨some [("a", ⟨none, none, none, none, none⟩), ("b", ⟨none, none, none, none, none⟩)],
      ⟨none, none, none, none, some [("a", Json.num 2), ("z", Json.num 1)]⟩⟩ rfl
  exact ⟨(h.1 _ rfl).1, (h.2 _ rfl).1⟩
